import Mathlib

/-!
Shallow embedding of the smarterli-desktop native audio DSP module
(src/native-module/src/{agc,compressor,echo_cancel,pre_emphasis}.rs).

Floating-point (`f32`) sample arithmetic is idealised as exact real
arithmetic (`ℝ`); the 16-bit reference samples of the echo-cancel path are
idealised as `ℤ` (they are only stored and moved, never combined); the
pre-emphasis filter, which uses only rational constants, is embedded over
`ℚ`.  Machine indices and counters are `ℕ`.
-/

noncomputable section

/-! ### compressor.rs constants (lines 15-28, 105-115, 163-170) -/

/-- 10ms RMS window at 48kHz (`RMS_WINDOW`). -/
def RMS_WINDOW : ℕ := 480

/-- Threshold in linear, ~-20 dBFS (`COMP_THRESHOLD`). -/
def COMP_THRESHOLD : ℝ := 0.1

/-- 4:1 compression ratio (source constant with the same value; renamed here). -/
def compRatio : ℝ := 4.0

/-- Soft knee width in dB (`KNEE_DB`). -/
def KNEE_DB : ℝ := 6.0

/-- Attack coefficient (`ATTACK_COEFF`). -/
def ATTACK_COEFF : ℝ := 0.02

/-- Release coefficient (`RELEASE_COEFF`). -/
def RELEASE_COEFF : ℝ := 0.00042

/-- Target RMS (`TARGET_RMS`). -/
def TARGET_RMS : ℝ := 0.15

/-- Maximum normalizer gain (`NORM_MAX_GAIN`). -/
def NORM_MAX_GAIN : ℝ := 40.0

/-- Minimum normalizer gain (`NORM_MIN_GAIN`). -/
def NORM_MIN_GAIN : ℝ := 0.5

/-- Normalizer smoothing coefficient (`NORM_SMOOTH_COEFF`). -/
def NORM_SMOOTH_COEFF : ℝ := 0.0001

/-- Normalizer silence floor (`NORM_SILENCE_FLOOR`). -/
def NORM_SILENCE_FLOOR : ℝ := 0.001

/-- Gate open threshold (`GATE_OPEN_THRESH`). -/
def GATE_OPEN_THRESH : ℝ := 0.005

/-- Gate close threshold (`GATE_CLOSE_THRESH`). -/
def GATE_CLOSE_THRESH : ℝ := 0.00316

/-- Gate hold time in samples (`GATE_HOLD_SAMPLES`). -/
def GATE_HOLD_SAMPLES : ℕ := 2400

/-- Gate release fade in samples (`GATE_RELEASE_SAMPLES`). -/
def GATE_RELEASE_SAMPLES : ℕ := 480

/-- Rust `f32::clamp(lo, hi)`: `lo` if below, `hi` if above, identity inside
(for `lo ≤ hi`, and away from NaN, this is `min (max x lo) hi`). -/
def clampR (x lo hi : ℝ) : ℝ := min (max x lo) hi

/-! ### Sliding RMS window (`rms_buffer` / `rms_index` / `rms_sum`)

The three fields and their per-sample update are textually identical in
`SpeechCompressor::process` (compressor.rs lines 75-78),
`RmsNormalizer::process` (lines 139-142) and `NoiseGate::process`
(lines 206-209); they are factored into one structure here, with the
source field names. -/

structure RmsTracker where
  rms_buffer : List ℝ
  rms_index : ℕ
  rms_sum : ℝ

/-- The per-sample window update:
`rms_sum -= rms_buffer[rms_index]; rms_buffer[rms_index] = sq;
 rms_sum += sq; rms_index = (rms_index + 1) % RMS_WINDOW;`.
The in-place array read `rms_buffer[rms_index]` is total here via `getD`;
the index invariant `rms_index < RMS_WINDOW` keeps it in bounds. -/
def RmsTracker.update (t : RmsTracker) (sq : ℝ) : RmsTracker where
  rms_buffer := t.rms_buffer.set t.rms_index sq
  rms_index := (t.rms_index + 1) % RMS_WINDOW
  rms_sum := t.rms_sum - t.rms_buffer.getD t.rms_index 0 + sq

/-- A fresh all-zero window (`[0.0; RMS_WINDOW]`, index 0, sum 0.0). -/
def RmsTracker.new : RmsTracker := ⟨List.replicate RMS_WINDOW 0, 0, 0⟩

/-! ### SpeechCompressor (compressor.rs lines 30-99) -/

structure SpeechCompressor where
  rms : RmsTracker
  gain_smooth : ℝ

/-- `SpeechCompressor::new` (lines 40-47). -/
def SpeechCompressor.new : SpeechCompressor := ⟨RmsTracker.new, 1.0⟩

/-- `SpeechCompressor::compute_gain_db` (lines 51-67).  `COMP_THRESHOLD.log10()`
is embedded as `Real.logb 10 COMP_THRESHOLD`. -/
def compute_gain_db (input_db : ℝ) : ℝ :=
  let thresh_db := 20 * Real.logb 10 COMP_THRESHOLD
  let half_knee := KNEE_DB / 2
  if input_db < thresh_db - half_knee then
    0
  else if input_db > thresh_db + half_knee then
    (thresh_db + (input_db - thresh_db) / compRatio) - input_db
  else
    (1 / compRatio - 1) * (input_db - thresh_db + half_knee)
      * (input_db - thresh_db + half_knee) / (2 * KNEE_DB)

/-- The below-knee branch formula of `compute_gain_db`, extended to all of
`ℝ` (for the boundary-agreement statements). -/
def compGainLow : ℝ → ℝ := fun _ => 0

/-- The above-knee branch formula of `compute_gain_db`, extended to all of
`ℝ`. -/
def compGainAbove (input_db : ℝ) : ℝ :=
  let thresh_db := 20 * Real.logb 10 COMP_THRESHOLD
  (thresh_db + (input_db - thresh_db) / compRatio) - input_db

/-- The in-knee quadratic branch formula of `compute_gain_db`, extended to
all of `ℝ`. -/
def compGainKnee (input_db : ℝ) : ℝ :=
  let thresh_db := 20 * Real.logb 10 COMP_THRESHOLD
  let half_knee := KNEE_DB / 2
  (1 / compRatio - 1) * (input_db - thresh_db + half_knee)
    * (input_db - thresh_db + half_knee) / (2 * KNEE_DB)

/-- `10.0f32.powf(gain_db / 20.0)` (line 86), as a real power. -/
def desiredGainOf (gain_db : ℝ) : ℝ := (10 : ℝ) ^ (gain_db / 20)

/-- One iteration of the loop body of `SpeechCompressor::process`
(lines 70-97); returns the new state and the output sample. -/
def compStep (s : SpeechCompressor) (x : ℝ) : SpeechCompressor × ℝ :=
  let sq := x * x
  let t := s.rms.update sq
  let rms := max (Real.sqrt (t.rms_sum / (RMS_WINDOW : ℝ))) 1e-10
  let input_db := 20 * Real.logb 10 rms
  let gain_db := compute_gain_db input_db
  let desired_gain := desiredGainOf gain_db
  let coeff := if desired_gain < s.gain_smooth then ATTACK_COEFF else RELEASE_COEFF
  let g := s.gain_smooth + coeff * (desired_gain - s.gain_smooth)
  (⟨t, g⟩, x * g)

/-- `SpeechCompressor::process` over a frame, returning the final state and
the in-place outputs in order. -/
def SpeechCompressor.process : SpeechCompressor → List ℝ → SpeechCompressor × List ℝ
  | s, [] => (s, [])
  | s, x :: xs =>
    let p := compStep s x
    let q := SpeechCompressor.process p.1 xs
    (q.1, p.2 :: q.2)

/-! ### RmsNormalizer (compressor.rs lines 117-157) -/

structure RmsNormalizer where
  rms : RmsTracker
  current_gain : ℝ

/-- `RmsNormalizer::new` (lines 125-132). -/
def RmsNormalizer.new : RmsNormalizer := ⟨RmsTracker.new, 1.0⟩

/-- One iteration of the loop body of `RmsNormalizer::process`
(lines 135-155). -/
def normStep (s : RmsNormalizer) (x : ℝ) : RmsNormalizer × ℝ :=
  let sq := x * x
  let t := s.rms.update sq
  let rms := Real.sqrt (t.rms_sum / (RMS_WINDOW : ℝ))
  let g :=
    if rms > NORM_SILENCE_FLOOR then
      let desired_gain := clampR (TARGET_RMS / rms) NORM_MIN_GAIN NORM_MAX_GAIN
      clampR (s.current_gain + NORM_SMOOTH_COEFF * (desired_gain - s.current_gain))
        NORM_MIN_GAIN NORM_MAX_GAIN
    else s.current_gain
  (⟨t, g⟩, clampR (x * g) (-1) 1)

/-- `RmsNormalizer::process` over a frame. -/
def RmsNormalizer.process : RmsNormalizer → List ℝ → RmsNormalizer × List ℝ
  | s, [] => (s, [])
  | s, x :: xs =>
    let p := normStep s x
    let q := RmsNormalizer.process p.1 xs
    (q.1, p.2 :: q.2)

/-! ### NoiseGate (compressor.rs lines 163-256) -/

inductive GState where
  | Open
  | Hold
  | Release
  | Closed
deriving DecidableEq, Repr

structure NoiseGate where
  rms : RmsTracker
  state : GState
  hold_counter : ℕ
  release_counter : ℕ

/-- `NoiseGate::new` (lines 190-199): starts `Open`. -/
def NoiseGate.new : NoiseGate := ⟨RmsTracker.new, GState.Open, 0, 0⟩

/-- The sliding RMS computed by one gate iteration on input `x`
(lines 203-211), before the state dispatch. -/
def NoiseGate.stepRms (s : NoiseGate) (x : ℝ) : ℝ :=
  Real.sqrt ((s.rms.update (x * x)).rms_sum / (RMS_WINDOW : ℝ))

/-- One iteration of the loop body of `NoiseGate::process` (lines 202-254);
returns the new state and the output sample. -/
def gateStep (s : NoiseGate) (x : ℝ) : NoiseGate × ℝ :=
  let t := s.rms.update (x * x)
  let rms := Real.sqrt (t.rms_sum / (RMS_WINDOW : ℝ))
  match s.state with
  | GState.Closed =>
    if rms ≥ GATE_OPEN_THRESH then
      ({ s with rms := t, state := GState.Open }, x)
    else
      ({ s with rms := t }, 0)
  | GState.Open =>
    if rms < GATE_CLOSE_THRESH then
      ({ s with rms := t, state := GState.Hold, hold_counter := GATE_HOLD_SAMPLES }, x)
    else
      ({ s with rms := t }, x)
  | GState.Hold =>
    if rms ≥ GATE_OPEN_THRESH then
      ({ s with rms := t, state := GState.Open }, x)
    else if s.hold_counter > 0 then
      ({ s with rms := t, hold_counter := s.hold_counter - 1 }, x)
    else
      ({ s with rms := t, state := GState.Release, release_counter := GATE_RELEASE_SAMPLES }, x)
  | GState.Release =>
    if rms ≥ GATE_OPEN_THRESH then
      ({ s with rms := t, state := GState.Open }, x)
    else if s.release_counter > 0 then
      ({ s with rms := t, release_counter := s.release_counter - 1 },
        x * ((s.release_counter : ℝ) / (GATE_RELEASE_SAMPLES : ℝ)))
    else
      ({ s with rms := t, state := GState.Closed }, 0)

/-- `NoiseGate::process` over a frame. -/
def NoiseGate.process : NoiseGate → List ℝ → NoiseGate × List ℝ
  | s, [] => (s, [])
  | s, x :: xs =>
    let p := gateStep s x
    let q := NoiseGate.process p.1 xs
    (q.1, p.2 :: q.2)

/-- The counter-and-state part of a gate state. -/
def NoiseGate.fsm (s : NoiseGate) : GState × ℕ × ℕ :=
  (s.state, s.hold_counter, s.release_counter)

/-- The transition `gateStep` takes on `(state, hold_counter,
release_counter)` whenever the freshly computed sliding RMS is below the
close threshold (hence also below the open threshold). -/
def fsmStep : GState × ℕ × ℕ → GState × ℕ × ℕ
  | (GState.Closed, h, r) => (GState.Closed, h, r)
  | (GState.Open, _, r) => (GState.Hold, GATE_HOLD_SAMPLES, r)
  | (GState.Hold, h, r) =>
    if h > 0 then (GState.Hold, h - 1, r)
    else (GState.Release, h, GATE_RELEASE_SAMPLES)
  | (GState.Release, h, r) =>
    if r > 0 then (GState.Release, h, r - 1) else (GState.Closed, h, r)

/-- Iterated low-RMS transitions. -/
def fsmIter : ℕ → GState × ℕ × ℕ → GState × ℕ × ℕ
  | 0, c => c
  | n + 1, c => fsmIter n (fsmStep c)

/-- Along a run of `NoiseGate::process` on `xs`, every per-sample sliding
RMS stays strictly below the close threshold. -/
def lowAll : NoiseGate → List ℝ → Prop
  | _, [] => True
  | s, x :: xs => s.stepRms x < GATE_CLOSE_THRESH ∧ lowAll (gateStep s x).1 xs

/-- Along a run of `NoiseGate::process` on `xs`, every per-sample sliding
RMS stays strictly below the open threshold. -/
def belowOpenAll : NoiseGate → List ℝ → Prop
  | _, [] => True
  | s, x :: xs =>
    s.stepRms x < GATE_OPEN_THRESH ∧ belowOpenAll (gateStep s x).1 xs

/-! ### SystemAudioProcessor (compressor.rs lines 262-284) -/

structure SystemAudioProcessor where
  compressor : SpeechCompressor
  normalizer : RmsNormalizer
  gate : NoiseGate

/-- `SystemAudioProcessor::new` (lines 269-275). -/
def SystemAudioProcessor.new : SystemAudioProcessor :=
  ⟨SpeechCompressor.new, RmsNormalizer.new, NoiseGate.new⟩

/-- `SystemAudioProcessor::process` (lines 279-283):
compress → normalize → gate, in place. -/
def SystemAudioProcessor.process (s : SystemAudioProcessor) (xs : List ℝ) :
    SystemAudioProcessor × List ℝ :=
  let c := s.compressor.process xs
  let n := s.normalizer.process c.2
  let g := s.gate.process n.2
  (⟨c.1, n.1, g.1⟩, g.2)

/-- States of the composite processor reachable from `new` by `process`
calls. -/
inductive SysReachable : SystemAudioProcessor → Prop where
  | init : SysReachable SystemAudioProcessor.new
  | step (s : SystemAudioProcessor) (xs : List ℝ) :
      SysReachable s → SysReachable (s.process xs).1

/-! ### AutoGainControl (agc.rs) -/

/-- Target peak level (`TARGET_PEAK`). -/
def TARGET_PEAK : ℝ := 0.25

/-- Maximum AGC gain (`MAX_GAIN`). -/
def MAX_GAIN : ℝ := 60.0

/-- Minimum AGC gain (`MIN_GAIN`). -/
def MIN_GAIN : ℝ := 1.0

/-- Peak envelope release coefficient (`ENVELOPE_RELEASE`). -/
def ENVELOPE_RELEASE : ℝ := 0.99993

/-- Gain release coefficient (`GAIN_RELEASE_COEFF`). -/
def GAIN_RELEASE_COEFF : ℝ := 0.02

/-- AGC silence floor (`SILENCE_FLOOR`). -/
def SILENCE_FLOOR : ℝ := 0.0001

structure AutoGainControl where
  current_gain : ℝ
  peak_envelope : ℝ

/-- `AutoGainControl::new` (agc.rs lines 46-51): gain starts at the ceiling. -/
def AutoGainControl.new : AutoGainControl := ⟨MAX_GAIN, 0⟩

/-- `AutoGainControl::process` (agc.rs lines 55-94): empty frames return at
once; otherwise the peak envelope is updated over the whole batch, the gain
is updated once from the envelope (frozen below the silence floor), and
every sample is scaled by the new gain and hard-clipped to `[-1, 1]`. -/
def AutoGainControl.process (s : AutoGainControl) (samples : List ℝ) :
    AutoGainControl × List ℝ :=
  if samples = [] then (s, [])
  else
    let env := samples.foldl
      (fun e x => if |x| > e then |x| else e * ENVELOPE_RELEASE) s.peak_envelope
    let gain :=
      if env > SILENCE_FLOOR then
        let desired_gain := clampR (TARGET_PEAK / env) MIN_GAIN MAX_GAIN
        if desired_gain < s.current_gain then desired_gain
        else clampR (s.current_gain + GAIN_RELEASE_COEFF * (desired_gain - s.current_gain))
          MIN_GAIN MAX_GAIN
      else s.current_gain
    (⟨gain, env⟩, samples.map (fun x => clampR (x * gain) (-1) 1))

/-! ### PreEmphasis (pre_emphasis.rs), over `ℚ` -/

/-- Pre-emphasis coefficient (`PRE_EMPHASIS_COEFF`). -/
def PRE_EMPHASIS_COEFF : ℚ := 0.65

structure PreEmphasis where
  prev_sample : ℚ

/-- `PreEmphasis::new` (pre_emphasis.rs lines 22-24). -/
def PreEmphasis.new : PreEmphasis := ⟨0⟩

/-- `PreEmphasis::process` (pre_emphasis.rs lines 27-33):
`y[n] = x[n] - coeff * x[n-1]` with `prev_sample` carried across calls. -/
def PreEmphasis.process : PreEmphasis → List ℚ → PreEmphasis × List ℚ
  | s, [] => (s, [])
  | s, x :: xs =>
    let y := x - PRE_EMPHASIS_COEFF * s.prev_sample
    let q := PreEmphasis.process ⟨x⟩ xs
    (q.1, y :: q.2)

/-! ### echo_cancel.rs: ReferenceBuffer and EchoCanceller

The `VecDeque<i16>` reference buffer is modelled as a `List ℤ` whose head
is the front of the deque.  The mutex only serialises access (the lock is
acquired blocking; the `Err` poisoning branches are unreachable without a
panic), so each operation is modelled as a state transformer. -/

/-- Max reference buffer capacity (`REF_BUFFER_CAPACITY`). -/
def REF_BUFFER_CAPACITY : ℕ := 16000

/-- AEC sub-frame size (`AEC_FRAME_SIZE`). -/
def AEC_FRAME_SIZE : ℕ := 160

/-- The `while guard.len() > REF_BUFFER_CAPACITY { guard.pop_front(); }` loop
of `push_reference` (echo_cancel.rs lines 30-32). -/
def trimHead (l : List ℤ) : List ℤ :=
  if l.length > REF_BUFFER_CAPACITY then trimHead l.tail else l
termination_by l.length
decreasing_by
  cases l with
  | nil => simp_all [REF_BUFFER_CAPACITY]
  | cons a as => simp

/-- `push_reference` (echo_cancel.rs lines 26-34): extend at the tail, then
trim oldest samples from the head while over capacity. -/
def push_reference (buf : List ℤ) (frame : List ℤ) : List ℤ :=
  trimHead (buf ++ frame)

/-- `pull_reference` (echo_cancel.rs lines 37-49): drain `size` samples from
the head when at least `size` are buffered, otherwise return `size` zeros
and leave the buffer untouched.  Returns (pulled samples, new buffer). -/
def pull_reference (buf : List ℤ) (size : ℕ) : List ℤ × List ℤ :=
  if buf.length ≥ size then (buf.take size, buf.drop size)
  else (List.replicate size 0, buf)

/-- `clear_reference` (echo_cancel.rs lines 52-57). -/
def clear_reference : List ℤ := []

/-- One call against the shared reference buffer. -/
inductive RefOp where
  | push (frame : List ℤ)
  | pull (size : ℕ)
  | clear

/-- Effect of one call on the buffer contents. -/
def refStep (buf : List ℤ) : RefOp → List ℤ
  | RefOp.push f => push_reference buf f
  | RefOp.pull n => (pull_reference buf n).2
  | RefOp.clear => clear_reference

/-- The buffer contents after a sequence of calls starting from the empty
buffer (the `OnceLock` initialises it empty). -/
def runRefOps (ops : List RefOp) : List ℤ := ops.foldl refStep []

/-- `slice::chunks(n)` on the model list: successive sub-lists of length
`n`, the last possibly shorter; `chunks(0)` panics in Rust and is never
invoked (the only call site uses `AEC_FRAME_SIZE`), modelled as `[]`. -/
def chunks : ℕ → List ℤ → List (List ℤ)
  | _, [] => []
  | 0, _ :: _ => []
  | n + 1, x :: xs => ((x :: xs).take (n + 1)) :: chunks (n + 1) (xs.drop n)
termination_by _ l => l.length
decreasing_by
  simp
  omega

/-- The `for (mic_chunk, ref_chunk) in ...chunks(..).zip(..)` loop of
`EchoCanceller::process` (echo_cancel.rs lines 99-111), parametrised by the
external cancellation capability `aec` (the out-of-scope
`Aec::cancel_echo`, which fills a preallocated sub-frame-sized output
buffer, so the capability returns a frame of the sub-frame length): full
sub-frame pairs are cancelled, a trailing partial sub-frame is passed
through unchanged. -/
def cancelLoop (aec : List ℤ → List ℤ → List ℤ) (mic_frame ref_samples : List ℤ) :
    List ℤ :=
  (((chunks AEC_FRAME_SIZE mic_frame).zip (chunks AEC_FRAME_SIZE ref_samples)).map
    (fun p => if p.1.length = AEC_FRAME_SIZE ∧ p.2.length = AEC_FRAME_SIZE
      then aec p.1 p.2 else p.1)).flatten

/-- `EchoCanceller::process` (echo_cancel.rs lines 95-114): pulls a
reference run of the mic-frame length and runs the cancellation loop.
Returns (output, reference buffer after the pull). -/
def EchoCanceller.process (aec : List ℤ → List ℤ → List ℤ)
    (refBuf : List ℤ) (mic_frame : List ℤ) : List ℤ × List ℤ :=
  let pulled := pull_reference refBuf mic_frame.length
  (cancelLoop aec mic_frame pulled.1, pulled.2)

end

/-! ## Verification -/

/-! ### ReferenceBuffer: C2, C5, C10 -/

lemma trimHead_eq_drop (l : List ℤ) :
    trimHead l = l.drop (l.length - REF_BUFFER_CAPACITY) := by
  induction l using trimHead.induct with
  | case1 l h ih =>
    rw [trimHead, if_pos h, ih]
    cases l with
    | nil => simp at h
    | cons a as =>
      simp only [List.tail_cons, List.length_cons]
      have : as.length + 1 - REF_BUFFER_CAPACITY
          = (as.length - REF_BUFFER_CAPACITY) + 1 := by
        simp only [List.length_cons] at h
        omega
      rw [this, List.drop_succ_cons]
  | case2 l h =>
    rw [trimHead, if_neg h]
    have : l.length - REF_BUFFER_CAPACITY = 0 := by omega
    rw [this, List.drop_zero]

lemma push_reference_eq_drop (buf frame : List ℤ) :
    push_reference buf frame
      = (buf ++ frame).drop ((buf ++ frame).length - REF_BUFFER_CAPACITY) :=
  trimHead_eq_drop (buf ++ frame)

lemma push_reference_length_le (buf frame : List ℤ) :
    (push_reference buf frame).length ≤ REF_BUFFER_CAPACITY := by
  rw [push_reference_eq_drop, List.length_drop]
  omega

lemma refStep_length_le (buf : List ℤ) (op : RefOp)
    (h : buf.length ≤ REF_BUFFER_CAPACITY) :
    (refStep buf op).length ≤ REF_BUFFER_CAPACITY := by
  cases op with
  | push f => exact push_reference_length_le buf f
  | pull n =>
    simp only [refStep, pull_reference]
    by_cases hn : buf.length ≥ n
    · simp only [if_pos hn, List.length_drop]
      omega
    · simpa only [if_neg hn] using h
  | clear => simp [refStep, clear_reference]

lemma foldl_refStep_length_le (ops : List RefOp) :
    ∀ buf : List ℤ, buf.length ≤ REF_BUFFER_CAPACITY →
      (ops.foldl refStep buf).length ≤ REF_BUFFER_CAPACITY := by
  induction ops with
  | nil => intro buf h; simpa using h
  | cons op ops ih =>
    intro buf h
    exact ih (refStep buf op) (refStep_length_le buf op h)

/-- C5: the reference buffer never exceeds its capacity after any call in
any call sequence from the empty buffer; `push_reference` appends the frame
at the tail and drops exactly the overflow from the head (so the length
equals the capacity when the combined length exceeded it); and a pull of an
available run returns the buffer head in ingestion (FIFO) order. -/
theorem refBuffer_capacity_fifo :
    (∀ ops : List RefOp, (runRefOps ops).length ≤ REF_BUFFER_CAPACITY)
    ∧ (∀ buf frame : List ℤ,
        push_reference buf frame
          = (buf ++ frame).drop ((buf ++ frame).length - REF_BUFFER_CAPACITY))
    ∧ (∀ buf frame : List ℤ,
        REF_BUFFER_CAPACITY < (buf ++ frame).length →
          (push_reference buf frame).length = REF_BUFFER_CAPACITY)
    ∧ (∀ (buf : List ℤ) (n : ℕ), n ≤ buf.length →
        (pull_reference buf n).1 = buf.take n) := by
  refine ⟨fun ops => foldl_refStep_length_le ops [] (by simp),
    push_reference_eq_drop, fun buf frame h => ?_, fun buf n h => ?_⟩
  · rw [push_reference_eq_drop, List.length_drop]
    omega
  · simp only [pull_reference, if_pos h]

/-- Witness for C5 at concrete inputs: a push of three samples onto a
two-sample buffer keeps everything (capacity is far away), and a pull of
two from a three-sample buffer returns the oldest two samples. -/
theorem refBuffer_capacity_fifo_witness :
    push_reference [1, 2] [3, 4, 5] = [1, 2, 3, 4, 5]
      ∧ (pull_reference [1, 2, 3] 2).1 = [1, 2] := by
  constructor
  · rw [refBuffer_capacity_fifo.2.1 [1, 2] [3, 4, 5]]
    decide
  · rw [refBuffer_capacity_fifo.2.2.2 [1, 2, 3] 2 (by decide)]
    decide

/-- C2 as stated is false: with one sample available and two requested,
`pull_reference` returns two zeros, not the available sample followed by
one zero. -/
theorem pull_underfull_not_prefix_cex :
    0 < ([(5 : ℤ)]).length ∧ ([(5 : ℤ)]).length < 2
      ∧ (pull_reference [(5 : ℤ)] 2).1 ≠ [5] ++ List.replicate 1 0
      ∧ (pull_reference [(5 : ℤ)] 2).1 = [0, 0] := by
  refine ⟨by decide, by decide, ?_, by decide⟩
  decide

/-- C2 amended: when the buffer holds fewer samples than requested
(including none at all), `pull_reference` returns a vector of zeros of the
requested length — the available samples are not returned (they stay in
the buffer). -/
theorem pull_underfull_all_zeros (buf : List ℤ) (n : ℕ)
    (h : buf.length < n) :
    (pull_reference buf n).1 = List.replicate n 0
      ∧ (pull_reference buf n).2 = buf := by
  have hn : ¬ buf.length ≥ n := by omega
  simp [pull_reference, if_neg hn]

/-- Witness for the amended C2 at a concrete input. -/
theorem pull_underfull_all_zeros_witness :
    (pull_reference [(5 : ℤ)] 2).1 = List.replicate 2 0
      ∧ (pull_reference [(5 : ℤ)] 2).2 = [5] :=
  pull_underfull_all_zeros [(5 : ℤ)] 2 (by decide)

/-- C10: an underfull pull consumes nothing — the buffer is unchanged and
the whole returned vector is zeros; samples are consumed (from the head)
only when at least `size` are available. -/
theorem pull_underfull_preserves_buffer :
    (∀ (buf : List ℤ) (n : ℕ), buf.length < n →
        (pull_reference buf n).2 = buf
          ∧ (pull_reference buf n).1 = List.replicate n 0)
    ∧ (∀ (buf : List ℤ) (n : ℕ), n ≤ buf.length →
        (pull_reference buf n).2 = buf.drop n) := by
  constructor
  · intro buf n h
    have hn : ¬ buf.length ≥ n := by omega
    simp [pull_reference, if_neg hn]
  · intro buf n h
    simp only [pull_reference, if_pos h]

/-- Witness for C10 at a concrete input. -/
theorem pull_underfull_preserves_buffer_witness :
    (pull_reference [(7 : ℤ), 8] 5).2 = [7, 8]
      ∧ (pull_reference [(7 : ℤ), 8] 5).1 = List.replicate 5 0 :=
  pull_underfull_preserves_buffer.1 [(7 : ℤ), 8] 5 (by decide)

/-! ### PreEmphasis: C8 -/

lemma preEmphasis_constant_run (m : ℕ) (V : ℚ) :
    PreEmphasis.process ⟨V⟩ (List.replicate m V)
      = (⟨V⟩, List.replicate m (V - PRE_EMPHASIS_COEFF * V)) := by
  induction m with
  | zero => rfl
  | succ k ih => simp [List.replicate_succ, PreEmphasis.process, ih]

lemma preEmphasis_last_state :
    ∀ (xs : List ℚ) (x : ℚ) (s : PreEmphasis),
      (PreEmphasis.process s (x :: xs)).1.prev_sample
        = (x :: xs).getLast (List.cons_ne_nil x xs) := by
  intro xs
  induction xs with
  | nil => intro x s; rfl
  | cons y ys ih =>
    intro x s
    simp only [PreEmphasis.process]
    rw [List.getLast_cons (List.cons_ne_nil y ys)]
    exact ih y ⟨x⟩

/-- C8: a fresh `PreEmphasis` run on a constant frame of value `V` and
length `n ≥ 1` outputs `V` first and `V * (1 - 0.65)` for every later
position; after any call on a nonempty frame `prev_sample` equals the last
input sample of that call; and the first output of any call is computed
from the carried `prev_sample` (successive calls are not independent). -/
theorem preEmphasis_constant_and_state :
    (∀ (V : ℚ) (n : ℕ), 1 ≤ n →
      PreEmphasis.process PreEmphasis.new (List.replicate n V)
        = (⟨V⟩, V :: List.replicate (n - 1) (V * (1 - PRE_EMPHASIS_COEFF))))
    ∧ (∀ (s : PreEmphasis) (x : ℚ) (xs : List ℚ),
        (PreEmphasis.process s (x :: xs)).1.prev_sample
          = (x :: xs).getLast (List.cons_ne_nil x xs))
    ∧ (∀ (s : PreEmphasis) (x : ℚ) (xs : List ℚ),
        ((PreEmphasis.process s (x :: xs)).2).head?
          = some (x - PRE_EMPHASIS_COEFF * s.prev_sample)) := by
  refine ⟨fun V n hn => ?_, fun s x xs => preEmphasis_last_state xs x s,
    fun s x xs => by simp [PreEmphasis.process]⟩
  obtain ⟨m, rfl⟩ : ∃ m, n = m + 1 := ⟨n - 1, by omega⟩
  have h0 : PRE_EMPHASIS_COEFF * (0 : ℚ) = 0 := by ring
  have h1 : V - PRE_EMPHASIS_COEFF * V = V * (1 - PRE_EMPHASIS_COEFF) := by ring
  simp only [List.replicate_succ, PreEmphasis.process, PreEmphasis.new,
    preEmphasis_constant_run, h0, sub_zero, Nat.add_sub_cancel, h1]

/-- Witness for C8 at `V = 2`, `n = 2`, and a second call carrying state. -/
theorem preEmphasis_constant_and_state_witness :
    PreEmphasis.process PreEmphasis.new (List.replicate 2 (2 : ℚ))
      = (⟨2⟩, 2 :: List.replicate 1 ((2 : ℚ) * (1 - PRE_EMPHASIS_COEFF)))
    ∧ ((PreEmphasis.process ⟨(2 : ℚ)⟩ [(2 : ℚ)]).2).head?
      = some ((2 : ℚ) - PRE_EMPHASIS_COEFF * 2) :=
  ⟨preEmphasis_constant_and_state.1 2 2 (by decide),
   preEmphasis_constant_and_state.2.2 ⟨2⟩ 2 []⟩

/-! ### EchoCanceller: C6 -/

lemma chunks_nil (n : ℕ) : chunks n [] = [] := by
  cases n <;> simp [chunks]

lemma chunks_cons_of_pos (n : ℕ) (hn : 0 < n) (x : ℤ) (xs : List ℤ) :
    chunks n (x :: xs) = (x :: xs).take n :: chunks n ((x :: xs).drop n) := by
  obtain ⟨m, rfl⟩ : ∃ m, n = m + 1 := ⟨n - 1, by omega⟩
  simp [chunks]

lemma cancelLoop_length_tail (aec : List ℤ → List ℤ → List ℤ)
    (HA : ∀ m r : List ℤ, m.length = AEC_FRAME_SIZE → r.length = AEC_FRAME_SIZE →
      (aec m r).length = AEC_FRAME_SIZE) :
    ∀ (N : ℕ) (mic ref : List ℤ), mic.length = N → ref.length = mic.length →
      (cancelLoop aec mic ref).length = mic.length
      ∧ (cancelLoop aec mic ref).drop
            (AEC_FRAME_SIZE * (mic.length / AEC_FRAME_SIZE))
          = mic.drop (AEC_FRAME_SIZE * (mic.length / AEC_FRAME_SIZE)) := by
  have hF : 0 < AEC_FRAME_SIZE := by norm_num [AEC_FRAME_SIZE]
  intro N
  induction N using Nat.strong_induction_on with
  | _ N ih =>
    intro mic ref hN href
    cases mic with
    | nil =>
      have : ref = [] := List.length_eq_zero.1 (by simpa using href)
      subst this
      simp [cancelLoop, chunks_nil]
    | cons x xs =>
      cases ref with
      | nil => simp at href
      | cons y ys =>
        by_cases hlen : AEC_FRAME_SIZE ≤ (x :: xs).length
        · -- a full leading sub-frame
          have hmt : ((x :: xs).take AEC_FRAME_SIZE).length = AEC_FRAME_SIZE := by
            rw [List.length_take]
            exact Nat.min_eq_left hlen
          have hrt : ((y :: ys).take AEC_FRAME_SIZE).length = AEC_FRAME_SIZE := by
            rw [List.length_take, href]
            exact Nat.min_eq_left hlen
          have hstep : cancelLoop aec (x :: xs) (y :: ys)
              = aec ((x :: xs).take AEC_FRAME_SIZE) ((y :: ys).take AEC_FRAME_SIZE)
                ++ cancelLoop aec ((x :: xs).drop AEC_FRAME_SIZE)
                    ((y :: ys).drop AEC_FRAME_SIZE) := by
            rw [cancelLoop, cancelLoop, chunks_cons_of_pos _ hF x xs,
              chunks_cons_of_pos _ hF y ys, List.zip_cons_cons, List.map_cons,
              List.flatten_cons, if_pos ⟨hmt, hrt⟩]
          have hmdl : ((x :: xs).drop AEC_FRAME_SIZE).length
              = (x :: xs).length - AEC_FRAME_SIZE := by
            rw [List.length_drop]
          have hrdl : ((y :: ys).drop AEC_FRAME_SIZE).length
              = ((x :: xs).drop AEC_FRAME_SIZE).length := by
            rw [List.length_drop, List.length_drop, href]
          have hlt : (x :: xs).length - AEC_FRAME_SIZE < N := by
            simp only [List.length_cons] at hN ⊢
            omega
          obtain ⟨ihlen, ihdrop⟩ := ih _ hlt ((x :: xs).drop AEC_FRAME_SIZE)
            ((y :: ys).drop AEC_FRAME_SIZE) (by rw [hmdl]) hrdl
          have hacl : (aec ((x :: xs).take AEC_FRAME_SIZE)
              ((y :: ys).take AEC_FRAME_SIZE)).length = AEC_FRAME_SIZE :=
            HA _ _ hmt hrt
          have h1 : ((x :: xs).length - AEC_FRAME_SIZE) + AEC_FRAME_SIZE
              = (x :: xs).length := Nat.sub_add_cancel hlen
          have hdiv : (x :: xs).length / AEC_FRAME_SIZE
              = ((x :: xs).length - AEC_FRAME_SIZE) / AEC_FRAME_SIZE + 1 := by
            conv_lhs => rw [← h1]
            rw [Nat.add_div_right _ hF]
          constructor
          · rw [hstep, List.length_append, hacl, ihlen, hmdl]
            omega
          · rw [hstep, hdiv]
            have harith : AEC_FRAME_SIZE
                * (((x :: xs).length - AEC_FRAME_SIZE) / AEC_FRAME_SIZE + 1)
                = AEC_FRAME_SIZE
                  + AEC_FRAME_SIZE
                    * (((x :: xs).length - AEC_FRAME_SIZE) / AEC_FRAME_SIZE) := by
              ring
            rw [harith, List.drop_append_eq_append_drop]
            have hd1 : (aec ((x :: xs).take AEC_FRAME_SIZE)
                ((y :: ys).take AEC_FRAME_SIZE)).drop
                  (AEC_FRAME_SIZE + AEC_FRAME_SIZE
                    * (((x :: xs).length - AEC_FRAME_SIZE) / AEC_FRAME_SIZE))
                = [] := by
              apply List.drop_eq_nil_of_le
              rw [hacl]
              omega
            rw [hd1, List.nil_append, hacl]
            have hd2 : AEC_FRAME_SIZE + AEC_FRAME_SIZE
                  * (((x :: xs).length - AEC_FRAME_SIZE) / AEC_FRAME_SIZE)
                - AEC_FRAME_SIZE
                = AEC_FRAME_SIZE
                  * (((x :: xs).length - AEC_FRAME_SIZE) / AEC_FRAME_SIZE) := by
              omega
            rw [hd2]
            rw [hmdl] at ihdrop
            rw [ihdrop, List.drop_drop]
        · -- a single trailing partial sub-frame
          push_neg at hlen
          have hne : (x :: xs).length ≠ AEC_FRAME_SIZE := by omega
          have hmt : (x :: xs).take AEC_FRAME_SIZE = x :: xs :=
            List.take_of_length_le (by omega)
          have hmd : (x :: xs).drop AEC_FRAME_SIZE = [] :=
            List.drop_eq_nil_of_le (by omega)
          have hrt : (y :: ys).take AEC_FRAME_SIZE = y :: ys := by
            apply List.take_of_length_le
            rw [href]
            omega
          have hrd : (y :: ys).drop AEC_FRAME_SIZE = [] := by
            apply List.drop_eq_nil_of_le
            rw [href]
            omega
          have hcond : ¬ ((x :: xs).length = AEC_FRAME_SIZE
              ∧ (y :: ys).length = AEC_FRAME_SIZE) := fun hc => hne hc.1
          have hstep : cancelLoop aec (x :: xs) (y :: ys) = x :: xs := by
            rw [cancelLoop, chunks_cons_of_pos _ hF x xs,
              chunks_cons_of_pos _ hF y ys, hmt, hmd, hrt, hrd, chunks_nil]
            simp only [List.zip_cons_cons, List.zip_nil_left, List.zip_nil_right,
              List.map_cons, List.map_nil, List.flatten_cons, List.flatten_nil,
              List.append_nil]
            rw [if_neg hcond]
          have hdiv0 : (x :: xs).length / AEC_FRAME_SIZE = 0 :=
            Nat.div_eq_of_lt hlen
          rw [hstep, hdiv0]
          simp

/-- C6: for every microphone frame (any length, including lengths not a
multiple of the sub-frame size) and any external cancellation capability
that maps full sub-frame pairs to full sub-frames, `EchoCanceller::process`
returns an output of exactly the input length, and everything past the last
full sub-frame boundary — the trailing partial sub-frame — is the input
copied through unmodified. -/
theorem echoCanceller_length_tail_passthrough
    (aec : List ℤ → List ℤ → List ℤ)
    (HA : ∀ m r : List ℤ, m.length = AEC_FRAME_SIZE → r.length = AEC_FRAME_SIZE →
      (aec m r).length = AEC_FRAME_SIZE)
    (refBuf mic_frame : List ℤ) :
    ((EchoCanceller.process aec refBuf mic_frame).1).length = mic_frame.length
    ∧ ((EchoCanceller.process aec refBuf mic_frame).1).drop
          (AEC_FRAME_SIZE * (mic_frame.length / AEC_FRAME_SIZE))
        = mic_frame.drop
          (AEC_FRAME_SIZE * (mic_frame.length / AEC_FRAME_SIZE)) := by
  have hpull : ((pull_reference refBuf mic_frame.length).1).length
      = mic_frame.length := by
    rw [pull_reference]
    by_cases h : refBuf.length ≥ mic_frame.length
    · simp [if_pos h, List.length_take]
      omega
    · simp [if_neg h]
  exact cancelLoop_length_tail aec HA mic_frame.length mic_frame
    (pull_reference refBuf mic_frame.length).1 rfl hpull

/-- Witness for C6: the identity capability, an empty reference buffer, and
a 3-sample frame (not a multiple of the sub-frame size). -/
theorem echoCanceller_length_tail_passthrough_witness :
    ((EchoCanceller.process (fun m _ => m) [] [1, 2, 3]).1).length
        = ([1, 2, 3] : List ℤ).length
    ∧ ((EchoCanceller.process (fun m _ => m) [] [1, 2, 3]).1).drop
          (AEC_FRAME_SIZE * (([1, 2, 3] : List ℤ).length / AEC_FRAME_SIZE))
        = ([1, 2, 3] : List ℤ).drop
          (AEC_FRAME_SIZE * (([1, 2, 3] : List ℤ).length / AEC_FRAME_SIZE)) :=
  echoCanceller_length_tail_passthrough (fun m _ => m)
    (fun _ _ hm _ => hm) [] [1, 2, 3]

/-! ### Sliding-RMS running-sum invariant: C7 -/

lemma sum_set_getD (l : List ℝ) : ∀ (i : ℕ), i < l.length → ∀ (a : ℝ),
    (l.set i a).sum = l.sum - l.getD i 0 + a := by
  induction l with
  | nil => intro i hi; simp at hi
  | cons x xs ih =>
    intro i hi a
    cases i with
    | zero => simp [List.set, List.sum_cons]; ring
    | succ j =>
      simp only [List.set, List.sum_cons, List.getD_cons_succ,
        ih j (by simpa using hi) a]
      ring

/-- The C7 invariant: the running sum equals the sum of the window contents
(together with the structural facts — a full-size window and an in-bounds
write index — that keep the in-place update meaningful). -/
def RmsTracker.Inv (t : RmsTracker) : Prop :=
  t.rms_sum = t.rms_buffer.sum
    ∧ t.rms_buffer.length = RMS_WINDOW
    ∧ t.rms_index < RMS_WINDOW

lemma trackerNew_inv : RmsTracker.Inv RmsTracker.new := by
  refine ⟨?_, by simp [RmsTracker.new], by norm_num [RmsTracker.new, RMS_WINDOW]⟩
  simp [RmsTracker.new, List.sum_replicate]

lemma update_inv (t : RmsTracker) (sq : ℝ) (h : t.Inv) :
    (t.update sq).Inv := by
  obtain ⟨hsum, hlen, hidx⟩ := h
  refine ⟨?_, ?_, ?_⟩
  · rw [RmsTracker.update]
    dsimp only
    rw [sum_set_getD t.rms_buffer t.rms_index (hlen ▸ hidx) sq, hsum]
  · simp [RmsTracker.update, hlen]
  · exact Nat.mod_lt _ (by norm_num [RMS_WINDOW])

lemma compStep_rms (s : SpeechCompressor) (x : ℝ) :
    ((compStep s x).1).rms = s.rms.update (x * x) := rfl

lemma normStep_rms (s : RmsNormalizer) (x : ℝ) :
    ((normStep s x).1).rms = s.rms.update (x * x) := rfl

lemma gateStep_rms (s : NoiseGate) (x : ℝ) :
    ((gateStep s x).1).rms = s.rms.update (x * x) := by
  rw [gateStep]
  cases s.state <;> dsimp only <;> split <;> first
  | rfl
  | (split <;> rfl)

lemma compProcess_inv (xs : List ℝ) : ∀ (s : SpeechCompressor), s.rms.Inv →
    ((SpeechCompressor.process s xs).1).rms.Inv := by
  induction xs with
  | nil => intro s h; exact h
  | cons x xs ih =>
    intro s h
    rw [SpeechCompressor.process]
    exact ih _ (compStep_rms s x ▸ update_inv s.rms (x * x) h)

lemma normProcess_inv (xs : List ℝ) : ∀ (s : RmsNormalizer), s.rms.Inv →
    ((RmsNormalizer.process s xs).1).rms.Inv := by
  induction xs with
  | nil => intro s h; exact h
  | cons x xs ih =>
    intro s h
    rw [RmsNormalizer.process]
    exact ih _ (normStep_rms s x ▸ update_inv s.rms (x * x) h)

lemma gateProcess_inv (xs : List ℝ) : ∀ (s : NoiseGate), s.rms.Inv →
    ((NoiseGate.process s xs).1).rms.Inv := by
  induction xs with
  | nil => intro s h; exact h
  | cons x xs ih =>
    intro s h
    rw [NoiseGate.process]
    exact ih _ (gateStep_rms s x ▸ update_inv s.rms (x * x) h)

/-- C7: in all three RMS-windowed components the running sum equals the sum
of the window entries in the fresh state, the per-sample update preserves
this exactly, and therefore so does `process` on every input sequence. -/
theorem rms_sum_invariant :
    RmsTracker.Inv RmsTracker.new
    ∧ (∀ (t : RmsTracker) (sq : ℝ), t.Inv → (t.update sq).Inv)
    ∧ (∀ (s : SpeechCompressor) (x : ℝ), s.rms.Inv → ((compStep s x).1).rms.Inv)
    ∧ (∀ (s : RmsNormalizer) (x : ℝ), s.rms.Inv → ((normStep s x).1).rms.Inv)
    ∧ (∀ (s : NoiseGate) (x : ℝ), s.rms.Inv → ((gateStep s x).1).rms.Inv)
    ∧ (∀ (s : SpeechCompressor) (xs : List ℝ), s.rms.Inv →
        ((SpeechCompressor.process s xs).1).rms.Inv)
    ∧ (∀ (s : RmsNormalizer) (xs : List ℝ), s.rms.Inv →
        ((RmsNormalizer.process s xs).1).rms.Inv)
    ∧ (∀ (s : NoiseGate) (xs : List ℝ), s.rms.Inv →
        ((NoiseGate.process s xs).1).rms.Inv) :=
  ⟨trackerNew_inv, update_inv,
   fun s x h => compStep_rms s x ▸ update_inv s.rms (x * x) h,
   fun s x h => normStep_rms s x ▸ update_inv s.rms (x * x) h,
   fun s x h => gateStep_rms s x ▸ update_inv s.rms (x * x) h,
   fun s xs => compProcess_inv xs s,
   fun s xs => normProcess_inv xs s,
   fun s xs => gateProcess_inv xs s⟩

/-- Witness for C7: the invariant after processing a concrete one-sample
frame from each fresh component state. -/
theorem rms_sum_invariant_witness :
    ((SpeechCompressor.process SpeechCompressor.new [2]).1).rms.Inv
    ∧ ((RmsNormalizer.process RmsNormalizer.new [2]).1).rms.Inv
    ∧ ((NoiseGate.process NoiseGate.new [2]).1).rms.Inv :=
  ⟨rms_sum_invariant.2.2.2.2.2.1 SpeechCompressor.new [2] trackerNew_inv,
   rms_sum_invariant.2.2.2.2.2.2.1 RmsNormalizer.new [2] trackerNew_inv,
   rms_sum_invariant.2.2.2.2.2.2.2 NoiseGate.new [2] trackerNew_inv⟩

/-! ### Soft-knee compression curve: C4 -/

lemma compThreshDb_eq : 20 * Real.logb 10 COMP_THRESHOLD = -20 := by
  have h10 : Real.log 10 ≠ 0 := by
    have := Real.log_pos (by norm_num : (1 : ℝ) < 10)
    linarith
  have h01 : (COMP_THRESHOLD : ℝ) = (10 : ℝ)⁻¹ := by norm_num [COMP_THRESHOLD]
  rw [h01, Real.logb, Real.log_inv, neg_div, div_self h10]
  norm_num

lemma hasDerivAt_compGainKnee (a s : ℝ)
    (hs : s = (1 / compRatio - 1)
        * (a - 20 * Real.logb 10 COMP_THRESHOLD + KNEE_DB / 2) / KNEE_DB) :
    HasDerivAt compGainKnee s a := by
  have h1 : HasDerivAt
      (fun L : ℝ => L - 20 * Real.logb 10 COMP_THRESHOLD + KNEE_DB / 2) 1 a := by
    simpa using
      ((hasDerivAt_id a).sub_const (20 * Real.logb 10 COMP_THRESHOLD)).add_const
        (KNEE_DB / 2)
  have h2 := ((h1.mul h1).const_mul (1 / compRatio - 1)).div_const (2 * KNEE_DB)
  have hfun : compGainKnee = fun L : ℝ =>
      (1 / compRatio - 1)
        * ((L - 20 * Real.logb 10 COMP_THRESHOLD + KNEE_DB / 2)
          * (L - 20 * Real.logb 10 COMP_THRESHOLD + KNEE_DB / 2)) / (2 * KNEE_DB) := by
    funext L
    simp only [compGainKnee]
    ring
  rw [hfun, hs]
  convert h2 using 1
  simp only [KNEE_DB, compRatio]
  ring

lemma hasDerivAt_compGainAbove (a : ℝ) :
    HasDerivAt compGainAbove (1 / compRatio - 1) a := by
  have h3 : HasDerivAt
      (fun L : ℝ => 20 * Real.logb 10 COMP_THRESHOLD
        + (L - 20 * Real.logb 10 COMP_THRESHOLD) / compRatio) (1 / compRatio) a := by
    simpa [one_div] using
      (((hasDerivAt_id a).sub_const (20 * Real.logb 10 COMP_THRESHOLD)).div_const
        compRatio).const_add (20 * Real.logb 10 COMP_THRESHOLD)
  have h4 := h3.sub (hasDerivAt_id a)
  exact h4

/-- C4: `compute_gain_db` is exactly the three claimed pieces — zero below
the knee, fixed-ratio reduction above it, the quadratic inside it — and at
both knee boundaries the adjacent pieces agree in value and in first
derivative (exactly, in real arithmetic, where `thresh_db` is
`20 * log10(0.1)`). -/
theorem compute_gain_db_soft_knee :
    (∀ L : ℝ, L < 20 * Real.logb 10 COMP_THRESHOLD - KNEE_DB / 2 →
        compute_gain_db L = compGainLow L)
    ∧ (∀ L : ℝ, L > 20 * Real.logb 10 COMP_THRESHOLD + KNEE_DB / 2 →
        compute_gain_db L = compGainAbove L)
    ∧ (∀ L : ℝ, 20 * Real.logb 10 COMP_THRESHOLD - KNEE_DB / 2 ≤ L →
        L ≤ 20 * Real.logb 10 COMP_THRESHOLD + KNEE_DB / 2 →
        compute_gain_db L = compGainKnee L)
    ∧ compGainKnee (20 * Real.logb 10 COMP_THRESHOLD - KNEE_DB / 2)
        = compGainLow (20 * Real.logb 10 COMP_THRESHOLD - KNEE_DB / 2)
    ∧ compGainKnee (20 * Real.logb 10 COMP_THRESHOLD + KNEE_DB / 2)
        = compGainAbove (20 * Real.logb 10 COMP_THRESHOLD + KNEE_DB / 2)
    ∧ HasDerivAt compGainLow 0
        (20 * Real.logb 10 COMP_THRESHOLD - KNEE_DB / 2)
    ∧ HasDerivAt compGainKnee 0
        (20 * Real.logb 10 COMP_THRESHOLD - KNEE_DB / 2)
    ∧ HasDerivAt compGainKnee (1 / compRatio - 1)
        (20 * Real.logb 10 COMP_THRESHOLD + KNEE_DB / 2)
    ∧ HasDerivAt compGainAbove (1 / compRatio - 1)
        (20 * Real.logb 10 COMP_THRESHOLD + KNEE_DB / 2) := by
  have hk : (0 : ℝ) < KNEE_DB / 2 := by norm_num [KNEE_DB]
  refine ⟨fun L h => ?_, fun L h => ?_, fun L h1 h2 => ?_, ?_, ?_,
    hasDerivAt_const _ 0, ?_, ?_, hasDerivAt_compGainAbove _⟩
  · simp only [compute_gain_db, compGainLow]
    rw [if_pos h]
  · have hnot : ¬ (L < 20 * Real.logb 10 COMP_THRESHOLD - KNEE_DB / 2) := by
      push_neg
      linarith
    simp only [compute_gain_db, compGainAbove]
    rw [if_neg hnot, if_pos h]
  · have hnot1 : ¬ (L < 20 * Real.logb 10 COMP_THRESHOLD - KNEE_DB / 2) := by
      push_neg
      exact h1
    have hnot2 : ¬ (L > 20 * Real.logb 10 COMP_THRESHOLD + KNEE_DB / 2) := by
      push_neg
      exact h2
    simp only [compute_gain_db, compGainKnee]
    rw [if_neg hnot1, if_neg hnot2]
  · simp only [compGainKnee, compGainLow]
    ring_nf
  · simp only [compGainKnee, compGainAbove, KNEE_DB, compRatio]
    ring_nf
  · exact hasDerivAt_compGainKnee _ 0 (by ring_nf)
  · exact hasDerivAt_compGainKnee _ (1 / compRatio - 1)
      (by simp only [KNEE_DB, compRatio]; ring_nf)

/-- Witness for C4 at concrete levels: -24 dB is below the knee (the
threshold is exactly -20 dB), -17 dB is the upper knee boundary. -/
theorem compute_gain_db_soft_knee_witness :
    compute_gain_db (-24) = compGainLow (-24)
      ∧ compute_gain_db (-24) = 0
      ∧ compute_gain_db (-16) = compGainAbove (-16) := by
  have h1 := compute_gain_db_soft_knee.1 (-24)
    (by rw [compThreshDb_eq]; norm_num [KNEE_DB])
  have h2 := compute_gain_db_soft_knee.2.1 (-16)
    (by rw [compThreshDb_eq]; norm_num [KNEE_DB])
  exact ⟨h1, by rw [h1]; rfl, h2⟩

/-! ### SpeechCompressor never amplifies: C9 -/

lemma compute_gain_db_nonpos (L : ℝ) : compute_gain_db L ≤ 0 := by
  rw [compute_gain_db]
  split
  · exact le_refl 0
  · split
    · rename_i h1 h2
      rw [not_lt] at h1
      simp only [compRatio, KNEE_DB] at *
      linarith
    · rename_i h1 h2
      rw [not_lt] at h1
      rw [not_lt] at h2
      simp only [compRatio, KNEE_DB] at *
      nlinarith [mul_self_nonneg
        (L - 20 * Real.logb 10 COMP_THRESHOLD + 6 / 2)]

lemma desiredGain_pos_le_one (L : ℝ) :
    0 < desiredGainOf (compute_gain_db L)
      ∧ desiredGainOf (compute_gain_db L) ≤ 1 := by
  constructor
  · exact Real.rpow_pos_of_pos (by norm_num) _
  · exact Real.rpow_le_one_of_one_le_of_nonpos (by norm_num)
      (by linarith [compute_gain_db_nonpos L])

lemma smooth_gain_mem (g d : ℝ) (hg1 : 0 < g) (hg2 : g ≤ 1)
    (hd1 : 0 < d) (hd2 : d ≤ 1) :
    0 < g + (if d < g then ATTACK_COEFF else RELEASE_COEFF) * (d - g)
      ∧ g + (if d < g then ATTACK_COEFF else RELEASE_COEFF) * (d - g) ≤ 1 := by
  split <;> constructor <;> simp only [ATTACK_COEFF, RELEASE_COEFF] <;> nlinarith

lemma compStep_gain_bounds (s : SpeechCompressor) (x : ℝ)
    (h1 : 0 < s.gain_smooth) (h2 : s.gain_smooth ≤ 1) :
    (0 < ((compStep s x).1).gain_smooth
      ∧ ((compStep s x).1).gain_smooth ≤ 1)
      ∧ |(compStep s x).2| ≤ |x| := by
  obtain ⟨hd1, hd2⟩ := desiredGain_pos_le_one
    (20 * Real.logb 10
      (max (Real.sqrt ((s.rms.update (x * x)).rms_sum / (RMS_WINDOW : ℝ))) 1e-10))
  obtain ⟨hg1, hg2⟩ := smooth_gain_mem s.gain_smooth _ h1 h2 hd1 hd2
  refine ⟨⟨hg1, hg2⟩, ?_⟩
  show |x * _| ≤ |x|
  rw [abs_mul]
  calc |x| * |_| = |x| * (s.gain_smooth + _ * (_ - s.gain_smooth)) := by
        rw [abs_of_pos hg1]
    _ ≤ |x| * 1 := by
        exact mul_le_mul_of_nonneg_left hg2 (abs_nonneg x)
    _ = |x| := mul_one _

lemma compProcess_gain_bounds (xs : List ℝ) : ∀ (s : SpeechCompressor),
    0 < s.gain_smooth → s.gain_smooth ≤ 1 →
    (0 < ((SpeechCompressor.process s xs).1).gain_smooth
      ∧ ((SpeechCompressor.process s xs).1).gain_smooth ≤ 1)
      ∧ List.Forall₂ (fun y x => |y| ≤ |x|) ((SpeechCompressor.process s xs).2) xs := by
  induction xs with
  | nil =>
    intro s h1 h2
    exact ⟨⟨h1, h2⟩, List.Forall₂.nil⟩
  | cons x xs ih =>
    intro s h1 h2
    obtain ⟨⟨hg1, hg2⟩, hout⟩ := compStep_gain_bounds s x h1 h2
    obtain ⟨hfin, htail⟩ := ih (compStep s x).1 hg1 hg2
    rw [SpeechCompressor.process]
    exact ⟨hfin, List.Forall₂.cons hout htail⟩

/-- C9 (implicit): the compressor never amplifies.  `compute_gain_db` is
nonpositive for every level, so the desired linear gain always lies in
`(0, 1]`; the smoothed gain starts at `1.0` and stays in `(0, 1]` after
every sample of every `process` call; hence every output sample has
magnitude at most its corresponding input sample. -/
theorem compressor_never_amplifies :
    (∀ L : ℝ, compute_gain_db L ≤ 0)
    ∧ (∀ L : ℝ, 0 < desiredGainOf (compute_gain_db L)
        ∧ desiredGainOf (compute_gain_db L) ≤ 1)
    ∧ SpeechCompressor.new.gain_smooth = 1
    ∧ (∀ (s : SpeechCompressor) (x : ℝ),
        0 < s.gain_smooth → s.gain_smooth ≤ 1 →
        (0 < ((compStep s x).1).gain_smooth
          ∧ ((compStep s x).1).gain_smooth ≤ 1)
          ∧ |(compStep s x).2| ≤ |x|)
    ∧ (∀ (s : SpeechCompressor) (xs : List ℝ),
        0 < s.gain_smooth → s.gain_smooth ≤ 1 →
        (0 < ((SpeechCompressor.process s xs).1).gain_smooth
          ∧ ((SpeechCompressor.process s xs).1).gain_smooth ≤ 1)
          ∧ List.Forall₂ (fun y x => |y| ≤ |x|)
              ((SpeechCompressor.process s xs).2) xs) :=
  ⟨compute_gain_db_nonpos, desiredGain_pos_le_one,
   by norm_num [SpeechCompressor.new], compStep_gain_bounds,
   fun s xs => compProcess_gain_bounds xs s⟩

/-- Witness for C9: the fresh compressor (gain 1) on a concrete frame. -/
theorem compressor_never_amplifies_witness :
    (0 < ((SpeechCompressor.process SpeechCompressor.new [2, -3]).1).gain_smooth
      ∧ ((SpeechCompressor.process SpeechCompressor.new [2, -3]).1).gain_smooth ≤ 1)
      ∧ List.Forall₂ (fun y x => |y| ≤ |x|)
          ((SpeechCompressor.process SpeechCompressor.new [2, -3]).2) [2, -3] :=
  compressor_never_amplifies.2.2.2.2 SpeechCompressor.new [2, -3]
    (by norm_num [SpeechCompressor.new]) (by norm_num [SpeechCompressor.new])

/-! ### Output bounds: C1 -/

lemma clampR_unit (x : ℝ) : -1 ≤ clampR x (-1) 1 ∧ clampR x (-1) 1 ≤ 1 :=
  ⟨le_min (le_max_right x (-1)) (by norm_num), min_le_right _ _⟩

lemma normStep_out_unit (s : RmsNormalizer) (x : ℝ) :
    -1 ≤ (normStep s x).2 ∧ (normStep s x).2 ≤ 1 := clampR_unit _

lemma normProcess_out_unit (xs : List ℝ) : ∀ (s : RmsNormalizer),
    List.Forall (fun y => -1 ≤ y ∧ y ≤ 1) ((RmsNormalizer.process s xs).2) := by
  induction xs with
  | nil => intro s; simp [RmsNormalizer.process]
  | cons x xs ih =>
    intro s
    rw [RmsNormalizer.process, List.forall_cons]
    exact ⟨normStep_out_unit s x, ih _⟩

lemma gateStep_rel_le (s : NoiseGate) (x : ℝ)
    (h : s.release_counter ≤ GATE_RELEASE_SAMPLES) :
    ((gateStep s x).1).release_counter ≤ GATE_RELEASE_SAMPLES := by
  rw [gateStep]
  cases s.state <;> dsimp only <;> split
  case Closed.isTrue => exact h
  case Closed.isFalse => exact h
  case Open.isTrue => exact h
  case Open.isFalse => exact h
  case Hold.isTrue => exact h
  case Hold.isFalse =>
    split
    · exact h
    · exact Nat.le_refl _
  case Release.isTrue => exact h
  case Release.isFalse =>
    split
    · dsimp only
      omega
    · exact h

lemma gateStep_out_unit (s : NoiseGate) (x : ℝ)
    (hrel : s.release_counter ≤ GATE_RELEASE_SAMPLES)
    (hx1 : -1 ≤ x) (hx2 : x ≤ 1) :
    -1 ≤ (gateStep s x).2 ∧ (gateStep s x).2 ≤ 1 := by
  have hG : (0 : ℝ) < (GATE_RELEASE_SAMPLES : ℝ) := by
    norm_num [GATE_RELEASE_SAMPLES]
  have hf0 : (0 : ℝ) ≤ (s.release_counter : ℝ) / (GATE_RELEASE_SAMPLES : ℝ) := by
    positivity
  have hf1 : (s.release_counter : ℝ) / (GATE_RELEASE_SAMPLES : ℝ) ≤ 1 := by
    rw [div_le_one hG]
    exact_mod_cast hrel
  rw [gateStep]
  cases s.state <;> dsimp only <;> split
  case Closed.isTrue => exact ⟨hx1, hx2⟩
  case Closed.isFalse => norm_num
  case Open.isTrue => exact ⟨hx1, hx2⟩
  case Open.isFalse => exact ⟨hx1, hx2⟩
  case Hold.isTrue => exact ⟨hx1, hx2⟩
  case Hold.isFalse => split <;> exact ⟨hx1, hx2⟩
  case Release.isTrue => exact ⟨hx1, hx2⟩
  case Release.isFalse =>
    split
    · dsimp only
      constructor
      · nlinarith [mul_nonneg (by linarith : (0 : ℝ) ≤ 1 + x) hf0]
      · nlinarith [mul_nonneg (by linarith : (0 : ℝ) ≤ 1 - x) hf0]
    · norm_num

lemma gateProcess_out_unit (xs : List ℝ) : ∀ (s : NoiseGate),
    s.release_counter ≤ GATE_RELEASE_SAMPLES →
    List.Forall (fun x => -1 ≤ x ∧ x ≤ 1) xs →
    List.Forall (fun y => -1 ≤ y ∧ y ≤ 1) ((NoiseGate.process s xs).2) := by
  induction xs with
  | nil => intro s _ _; simp [NoiseGate.process]
  | cons x xs ih =>
    intro s hrel hxs
    rw [List.forall_cons] at hxs
    rw [NoiseGate.process, List.forall_cons]
    exact ⟨gateStep_out_unit s x hrel hxs.1.1 hxs.1.2,
      ih _ (gateStep_rel_le s x hrel) hxs.2⟩

lemma gateProcess_rel_le (xs : List ℝ) : ∀ (s : NoiseGate),
    s.release_counter ≤ GATE_RELEASE_SAMPLES →
    ((NoiseGate.process s xs).1).release_counter ≤ GATE_RELEASE_SAMPLES := by
  induction xs with
  | nil => intro s h; exact h
  | cons x xs ih =>
    intro s h
    rw [NoiseGate.process]
    exact ih _ (gateStep_rel_le s x h)

lemma reachable_rel_le (s : SystemAudioProcessor) (h : SysReachable s) :
    s.gate.release_counter ≤ GATE_RELEASE_SAMPLES := by
  induction h with
  | init => norm_num [SystemAudioProcessor.new, NoiseGate.new]
  | step s xs hr ih => exact gateProcess_rel_le _ _ ih

/-- C1: from every reachable processor state, every sample left in the
frame by `SystemAudioProcessor::process` (compress, then normalize, then
gate, in place) lies in `[-1, 1]`, for arbitrary finite input amplitude;
and every sample left by `AutoGainControl::process` alone lies in `[-1, 1]`
from any AGC state. -/
theorem pipeline_output_bounded :
    (∀ (s : SystemAudioProcessor), SysReachable s → ∀ (xs : List ℝ),
        List.Forall (fun y => -1 ≤ y ∧ y ≤ 1) ((s.process xs).2))
    ∧ (∀ (a : AutoGainControl) (xs : List ℝ),
        List.Forall (fun y => -1 ≤ y ∧ y ≤ 1) ((a.process xs).2)) := by
  constructor
  · intro s hr xs
    exact gateProcess_out_unit _ _ (reachable_rel_le s hr)
      (normProcess_out_unit _ _)
  · intro a xs
    rw [AutoGainControl.process]
    split
    · simp
    · refine List.forall_iff_forall_mem.2 ?_
      intro y hy
      obtain ⟨x, _, rfl⟩ := List.mem_map.1 hy
      exact clampR_unit _

/-- Witness for C1: the fresh processor and a frame whose sample exceeds
unity, and the fresh AGC likewise. -/
theorem pipeline_output_bounded_witness :
    List.Forall (fun y => -1 ≤ y ∧ y ≤ 1)
      ((SystemAudioProcessor.new.process [2, -3]).2)
    ∧ List.Forall (fun y => -1 ≤ y ∧ y ≤ 1)
      ((AutoGainControl.new.process [2, -3]).2) :=
  ⟨pipeline_output_bounded.1 SystemAudioProcessor.new SysReachable.init [2, -3],
   pipeline_output_bounded.2 AutoGainControl.new [2, -3]⟩

/-! ### NoiseGate temporal behaviour: C3 -/

lemma close_le_open : GATE_CLOSE_THRESH ≤ GATE_OPEN_THRESH := by
  norm_num [GATE_CLOSE_THRESH, GATE_OPEN_THRESH]

lemma gateStep_fsm (s : NoiseGate) (x : ℝ)
    (h : s.stepRms x < GATE_CLOSE_THRESH) :
    ((gateStep s x).1).fsm = fsmStep s.fsm := by
  have hnot : ¬ (Real.sqrt ((s.rms.update (x * x)).rms_sum / (RMS_WINDOW : ℝ))
      ≥ GATE_OPEN_THRESH) := by
    rw [NoiseGate.stepRms] at h
    push_neg
    linarith [close_le_open]
  have hlt : Real.sqrt ((s.rms.update (x * x)).rms_sum / (RMS_WINDOW : ℝ))
      < GATE_CLOSE_THRESH := by
    rw [NoiseGate.stepRms] at h
    exact h
  obtain ⟨t, st, hc, rc⟩ := s
  cases st <;>
    simp only [gateStep, NoiseGate.fsm, fsmStep, if_neg hnot, if_pos hlt]
  · split <;> rfl
  · split <;> rfl

lemma gateProcess_fsm (xs : List ℝ) : ∀ (s : NoiseGate), lowAll s xs →
    ((NoiseGate.process s xs).1).fsm = fsmIter xs.length s.fsm := by
  induction xs with
  | nil => intro s _; rfl
  | cons x xs ih =>
    intro s hl
    rw [lowAll] at hl
    rw [NoiseGate.process, List.length_cons]
    show ((NoiseGate.process (gateStep s x).1 xs).1).fsm = _
    rw [ih _ hl.2, gateStep_fsm s x hl.1]
    rfl

lemma fsmIter_add (a b : ℕ) : ∀ (c : GState × ℕ × ℕ),
    fsmIter (a + b) c = fsmIter b (fsmIter a c) := by
  induction a with
  | zero => intro c; rw [Nat.zero_add]; rfl
  | succ k ih =>
    intro c
    have : k + 1 + b = (k + b) + 1 := by omega
    rw [this]
    show fsmIter (k + b) (fsmStep c) = _
    rw [ih (fsmStep c)]
    rfl

lemma fsm_hold_run (k : ℕ) : ∀ (m r : ℕ), k ≤ m →
    fsmIter k (GState.Hold, m, r) = (GState.Hold, m - k, r) := by
  induction k with
  | zero => intro m r _; simp [fsmIter]
  | succ j ih =>
    intro m r hk
    show fsmIter j (fsmStep (GState.Hold, m, r)) = _
    have hsub : m - 1 - j = m - (j + 1) := by omega
    rw [fsmStep, if_pos (by omega : m > 0), ih (m - 1) r (by omega), hsub]

lemma fsm_rel_run (k : ℕ) : ∀ (h m : ℕ), k ≤ m →
    fsmIter k (GState.Release, h, m) = (GState.Release, h, m - k) := by
  induction k with
  | zero => intro h m _; simp [fsmIter]
  | succ j ih =>
    intro h m hk
    show fsmIter j (fsmStep (GState.Release, h, m)) = _
    have hsub : m - 1 - j = m - (j + 1) := by omega
    rw [fsmStep, if_pos (by omega : m > 0), ih h (m - 1) (by omega), hsub]

lemma fsm_closed_run (n : ℕ) : ∀ (h r : ℕ),
    fsmIter n (GState.Closed, h, r) = (GState.Closed, h, r) := by
  induction n with
  | zero => intro h r; rfl
  | succ k ih => intro h r; exact ih h r

lemma fsm_open_to_closed (n h r : ℕ)
    (hn : GATE_HOLD_SAMPLES + GATE_RELEASE_SAMPLES + 3 ≤ n) :
    fsmIter n (GState.Open, h, r) = (GState.Closed, 0, 0) := by
  obtain ⟨m, rfl⟩ : ∃ m,
      n = (((1 + GATE_HOLD_SAMPLES) + 1) + GATE_RELEASE_SAMPLES + 1) + m := by
    refine ⟨n - (GATE_HOLD_SAMPLES + GATE_RELEASE_SAMPLES + 3), ?_⟩
    omega
  have e1 : fsmIter 1 (GState.Open, h, r)
      = (GState.Hold, GATE_HOLD_SAMPLES, r) := rfl
  have e2 : fsmIter GATE_HOLD_SAMPLES (GState.Hold, GATE_HOLD_SAMPLES, r)
      = (GState.Hold, 0, r) := by
    rw [fsm_hold_run _ _ _ (le_refl _), Nat.sub_self]
  have e3 : fsmIter 1 (GState.Hold, 0, r)
      = (GState.Release, 0, GATE_RELEASE_SAMPLES) := rfl
  have e4 : fsmIter GATE_RELEASE_SAMPLES
        (GState.Release, 0, GATE_RELEASE_SAMPLES)
      = (GState.Release, 0, 0) := by
    rw [fsm_rel_run _ _ _ (le_refl _), Nat.sub_self]
  have e5 : fsmIter 1 (GState.Release, 0, 0) = (GState.Closed, 0, 0) := rfl
  rw [fsmIter_add, fsmIter_add, fsmIter_add, fsmIter_add, fsmIter_add,
    e1, e2, e3, e4, e5, fsm_closed_run]

lemma set_replicate_zero : ∀ (n i : ℕ),
    (List.replicate n (0 : ℝ)).set i 0 = List.replicate n 0 := by
  intro n
  induction n with
  | zero => intro i; rfl
  | succ k ih =>
    intro i
    cases i with
    | zero => simp [List.replicate_succ, List.set]
    | succ j => simp [List.replicate_succ, List.set, ih j]

lemma getD_replicate_zero : ∀ (n i : ℕ),
    (List.replicate n (0 : ℝ)).getD i 0 = 0 := by
  intro n
  induction n with
  | zero => intro i; simp [List.getD]
  | succ k ih =>
    intro i
    cases i with
    | zero => simp [List.replicate_succ]
    | succ j =>
      rw [List.replicate_succ, List.getD_cons_succ]
      exact ih j

lemma update_zero_tracker (idx : ℕ) :
    RmsTracker.update ⟨List.replicate RMS_WINDOW 0, idx, 0⟩ ((0 : ℝ) * 0)
      = ⟨List.replicate RMS_WINDOW 0, (idx + 1) % RMS_WINDOW, 0⟩ := by
  rw [RmsTracker.update]
  simp only [mul_zero]
  congr 1
  · exact set_replicate_zero RMS_WINDOW idx
  · rw [getD_replicate_zero]
    ring

lemma stepRms_zero (idx : ℕ) (st : GState) (hc rc : ℕ) :
    NoiseGate.stepRms ⟨⟨List.replicate RMS_WINDOW 0, idx, 0⟩, st, hc, rc⟩ 0
      = 0 := by
  rw [NoiseGate.stepRms]
  show Real.sqrt ((RmsTracker.update ⟨List.replicate RMS_WINDOW 0, idx, 0⟩
    ((0 : ℝ) * 0)).rms_sum / (RMS_WINDOW : ℝ)) = 0
  rw [update_zero_tracker]
  simp

lemma gateStep_zero_tracker (idx : ℕ) (st : GState) (hc rc : ℕ) :
    (gateStep ⟨⟨List.replicate RMS_WINDOW 0, idx, 0⟩, st, hc, rc⟩ 0).1
      = ⟨⟨List.replicate RMS_WINDOW 0, (idx + 1) % RMS_WINDOW, 0⟩,
          ((gateStep ⟨⟨List.replicate RMS_WINDOW 0, idx, 0⟩, st, hc, rc⟩ 0).1).state,
          ((gateStep ⟨⟨List.replicate RMS_WINDOW 0, idx, 0⟩, st, hc, rc⟩ 0).1).hold_counter,
          ((gateStep ⟨⟨List.replicate RMS_WINDOW 0, idx, 0⟩, st, hc, rc⟩ 0).1).release_counter⟩ := by
  have ht := gateStep_rms ⟨⟨List.replicate RMS_WINDOW 0, idx, 0⟩, st, hc, rc⟩ 0
  rw [update_zero_tracker] at ht
  conv_lhs => rw [show (gateStep ⟨⟨List.replicate RMS_WINDOW 0, idx, 0⟩, st, hc, rc⟩ 0).1
    = ⟨((gateStep ⟨⟨List.replicate RMS_WINDOW 0, idx, 0⟩, st, hc, rc⟩ 0).1).rms,
       ((gateStep ⟨⟨List.replicate RMS_WINDOW 0, idx, 0⟩, st, hc, rc⟩ 0).1).state,
       ((gateStep ⟨⟨List.replicate RMS_WINDOW 0, idx, 0⟩, st, hc, rc⟩ 0).1).hold_counter,
       ((gateStep ⟨⟨List.replicate RMS_WINDOW 0, idx, 0⟩, st, hc, rc⟩ 0).1).release_counter⟩ from rfl]
  rw [ht]

lemma lowAll_zero (n : ℕ) : ∀ (idx : ℕ) (st : GState) (hc rc : ℕ),
    lowAll ⟨⟨List.replicate RMS_WINDOW 0, idx, 0⟩, st, hc, rc⟩
      (List.replicate n 0) := by
  induction n with
  | zero => intro idx st hc rc; trivial
  | succ k ih =>
    intro idx st hc rc
    rw [List.replicate_succ, lowAll]
    constructor
    · rw [stepRms_zero]
      norm_num [GATE_CLOSE_THRESH]
    · rw [gateStep_zero_tracker]
      exact ih _ _ _ _

lemma gateProcess_length (xs : List ℝ) : ∀ (s : NoiseGate),
    ((NoiseGate.process s xs).2).length = xs.length := by
  induction xs with
  | nil => intro s; rfl
  | cons x xs ih =>
    intro s
    rw [NoiseGate.process]
    show ((gateStep s x).2 :: (NoiseGate.process (gateStep s x).1 xs).2).length
      = (x :: xs).length
    rw [List.length_cons, List.length_cons, ih]

lemma gateProcess_append (a : List ℝ) : ∀ (b : List ℝ) (s : NoiseGate),
    NoiseGate.process s (a ++ b)
      = ((NoiseGate.process (NoiseGate.process s a).1 b).1,
         (NoiseGate.process s a).2
           ++ (NoiseGate.process (NoiseGate.process s a).1 b).2) := by
  induction a with
  | nil => intro b s; rfl
  | cons x xs ih =>
    intro b s
    rw [List.cons_append, NoiseGate.process, NoiseGate.process, ih b (gateStep s x).1]
    rfl

lemma lowAll_append (a : List ℝ) : ∀ (b : List ℝ) (s : NoiseGate),
    lowAll s (a ++ b) → lowAll s a ∧ lowAll (NoiseGate.process s a).1 b := by
  induction a with
  | nil => intro b s h; exact ⟨trivial, h⟩
  | cons x xs ih =>
    intro b s h
    rw [List.cons_append, lowAll] at h
    obtain ⟨h1, h2⟩ := h
    obtain ⟨h3, h4⟩ := ih b (gateStep s x).1 h2
    refine ⟨?_, ?_⟩
    · rw [lowAll]
      exact ⟨h1, h3⟩
    · rw [NoiseGate.process]
      exact h4

lemma lowAll_take (k : ℕ) : ∀ (xs : List ℝ) (s : NoiseGate),
    lowAll s xs → lowAll s (xs.take k) := by
  induction k with
  | zero => intro xs s _; trivial
  | succ j ih =>
    intro xs s h
    cases xs with
    | nil => trivial
    | cons x xs =>
      rw [lowAll] at h
      rw [List.take_succ_cons, lowAll]
      exact ⟨h.1, ih xs _ h.2⟩

lemma lowAll_imp_belowOpen (xs : List ℝ) : ∀ (s : NoiseGate),
    lowAll s xs → belowOpenAll s xs := by
  induction xs with
  | nil => intro s _; trivial
  | cons x xs ih =>
    intro s h
    rw [lowAll] at h
    rw [belowOpenAll]
    exact ⟨lt_of_lt_of_le h.1 close_le_open, ih _ h.2⟩

lemma gateStep_closed (s : NoiseGate) (x : ℝ) (hst : s.state = GState.Closed)
    (h : s.stepRms x < GATE_OPEN_THRESH) :
    (gateStep s x).1.state = GState.Closed ∧ (gateStep s x).2 = 0 := by
  have hnot : ¬ (Real.sqrt ((s.rms.update (x * x)).rms_sum / (RMS_WINDOW : ℝ))
      ≥ GATE_OPEN_THRESH) := by
    rw [NoiseGate.stepRms] at h
    push_neg
    exact h
  obtain ⟨t, st, hc, rc⟩ := s
  subst hst
  simp only [gateStep, if_neg hnot]
  exact ⟨trivial, trivial⟩

lemma gateProcess_closed (xs : List ℝ) : ∀ (s : NoiseGate),
    s.state = GState.Closed → belowOpenAll s xs →
    (NoiseGate.process s xs).2 = List.replicate xs.length 0
      ∧ ((NoiseGate.process s xs).1).state = GState.Closed := by
  induction xs with
  | nil => intro s hst _; exact ⟨rfl, hst⟩
  | cons x xs ih =>
    intro s hst hl
    rw [belowOpenAll] at hl
    obtain ⟨hs1, hout⟩ := gateStep_closed s x hst hl.1
    obtain ⟨ho, hf⟩ := ih (gateStep s x).1 hs1 hl.2
    rw [NoiseGate.process]
    refine ⟨?_, hf⟩
    show (gateStep s x).2 :: (NoiseGate.process (gateStep s x).1 xs).2 = _
    rw [hout, ho, List.length_cons, List.replicate_succ]

lemma getD_replicate_val (n : ℕ) : ∀ (i : ℕ), i < n →
    (List.replicate n (0 : ℝ)).getD i 1 = 0 := by
  induction n with
  | zero => intro i hi; omega
  | succ k ih =>
    intro i hi
    cases i with
    | zero => simp [List.replicate_succ]
    | succ j =>
      rw [List.replicate_succ, List.getD_cons_succ]
      exact ih j (by omega)

lemma gate_open_closed_after (s : NoiseGate) (xs : List ℝ)
    (hst : s.state = GState.Open) (hl : lowAll s xs)
    (hk : GATE_HOLD_SAMPLES + GATE_RELEASE_SAMPLES + 3 ≤ xs.length) :
    ((NoiseGate.process s xs).1).state = GState.Closed := by
  have hfsm := gateProcess_fsm xs s hl
  have h1 : ((NoiseGate.process s xs).1).state = (fsmIter xs.length s.fsm).1 :=
    congrArg Prod.fst hfsm
  rw [NoiseGate.fsm, hst, fsm_open_to_closed xs.length s.hold_counter
    s.release_counter hk] at h1
  exact h1

/-- C3, amended: from `Open`, a run on which every per-sample sliding RMS
stays below the close threshold reaches `Closed` after
`GATE_HOLD_SAMPLES + GATE_RELEASE_SAMPLES + 3 = 2883` samples (one sample
enters Hold, `2400 + 1` leave Hold, `480 + 1` leave Release), not after
`2400 + 480 = 2880` as claimed, and every output from the 2884th sample on
is exactly `0.0`; once `Closed`, every output is exactly `0.0` and the
state stays `Closed` for as long as the RMS stays below the open
threshold; and a sample processed in `Hold` or `Release` whose RMS reaches
the open threshold sends the state directly back to `Open` (so `Closed`
is never entered on that path). -/
theorem noiseGate_closes_after_sustained_low :
    (∀ (s : NoiseGate) (xs : List ℝ), s.state = GState.Open → lowAll s xs →
      (∀ k : ℕ, GATE_HOLD_SAMPLES + GATE_RELEASE_SAMPLES + 3 ≤ k →
        k ≤ xs.length →
        ((NoiseGate.process s (xs.take k)).1).state = GState.Closed)
      ∧ (∀ i : ℕ, GATE_HOLD_SAMPLES + GATE_RELEASE_SAMPLES + 3 ≤ i →
        i < xs.length → ((NoiseGate.process s xs).2).getD i 1 = 0))
    ∧ (∀ (s : NoiseGate) (ys : List ℝ), s.state = GState.Closed →
        belowOpenAll s ys →
        (NoiseGate.process s ys).2 = List.replicate ys.length 0
          ∧ ((NoiseGate.process s ys).1).state = GState.Closed)
    ∧ (∀ (s : NoiseGate) (x : ℝ),
        s.state = GState.Hold ∨ s.state = GState.Release →
        GATE_OPEN_THRESH ≤ s.stepRms x →
        ((gateStep s x).1).state = GState.Open) := by
  refine ⟨?_, ?_, ?_⟩
  · intro s xs hst hl
    constructor
    · intro k hk1 hk2
      refine gate_open_closed_after s (xs.take k) hst (lowAll_take k xs s hl) ?_
      rw [List.length_take]
      omega
    · intro i hi1 hi2
      have hKlen : GATE_HOLD_SAMPLES + GATE_RELEASE_SAMPLES + 3 ≤ xs.length := by
        omega
      have hx : xs = xs.take (GATE_HOLD_SAMPLES + GATE_RELEASE_SAMPLES + 3)
          ++ xs.drop (GATE_HOLD_SAMPLES + GATE_RELEASE_SAMPLES + 3) :=
        (List.take_append_drop _ xs).symm
      rw [hx] at hl
      obtain ⟨hlt, hld⟩ := lowAll_append _ _ s hl
      have hclosed := gate_open_closed_after s
        (xs.take (GATE_HOLD_SAMPLES + GATE_RELEASE_SAMPLES + 3)) hst hlt
        (by rw [List.length_take]; omega)
      obtain ⟨hrep, _⟩ := gateProcess_closed _ _ hclosed
        (lowAll_imp_belowOpen _ _ hld)
      conv_lhs => rw [hx]
      rw [gateProcess_append]
      dsimp only
      have hAlen : ((NoiseGate.process s
          (xs.take (GATE_HOLD_SAMPLES + GATE_RELEASE_SAMPLES + 3))).2).length
          = GATE_HOLD_SAMPLES + GATE_RELEASE_SAMPLES + 3 := by
        rw [gateProcess_length, List.length_take]
        omega
      rw [List.getD_append_right _ _ _ _ (by rw [hAlen]; omega)]
      rw [hrep, hAlen]
      refine getD_replicate_val _ _ ?_
      rw [List.length_drop]
      omega
  · intro s ys hst hb
    exact gateProcess_closed ys s hst hb
  · intro s x hdisj hge
    obtain ⟨t, st, hc, rc⟩ := s
    have hge' : Real.sqrt ((t.update (x * x)).rms_sum / (RMS_WINDOW : ℝ))
        ≥ GATE_OPEN_THRESH := hge
    rcases hdisj with h | h
    · have : st = GState.Hold := h
      subst this
      simp only [gateStep, if_pos hge']
    · have : st = GState.Release := h
      subst this
      simp only [gateStep, if_pos hge']

/-- Witness for the amended C3: the fresh gate (Open, all-zero window) on
2883 zero samples ends Closed. -/
theorem noiseGate_closes_after_sustained_low_witness :
    ((NoiseGate.process NoiseGate.new
        ((List.replicate 2883 (0 : ℝ)).take 2883)).1).state = GState.Closed :=
  (noiseGate_closes_after_sustained_low.1 NoiseGate.new
      (List.replicate 2883 (0 : ℝ)) rfl (lowAll_zero 2883 0 GState.Open 0 0)).1
    2883 (by norm_num [GATE_HOLD_SAMPLES, GATE_RELEASE_SAMPLES])
    (by simp only [List.length_replicate, le_refl])

/-- C3 as stated is false at the boundary: the fresh gate (state `Open`),
fed 2881 samples — more than `GATE_HOLD_SAMPLES + GATE_RELEASE_SAMPLES =
2880` — whose sliding RMS stays below the close threshold throughout, is
still not `Closed` (it is one sample short of finishing `Release`). -/
theorem noiseGate_hold_release_bound_cex :
    NoiseGate.new.state = GState.Open
    ∧ lowAll NoiseGate.new (List.replicate 2881 (0 : ℝ))
    ∧ GATE_HOLD_SAMPLES + GATE_RELEASE_SAMPLES < 2881
    ∧ ((NoiseGate.process NoiseGate.new (List.replicate 2881 (0 : ℝ))).1).state
        ≠ GState.Closed := by
  have hlow : lowAll NoiseGate.new (List.replicate 2881 (0 : ℝ)) :=
    lowAll_zero 2881 0 GState.Open 0 0
  refine ⟨rfl, hlow,
    by norm_num [GATE_HOLD_SAMPLES, GATE_RELEASE_SAMPLES], ?_⟩
  have hfsm := gateProcess_fsm (List.replicate 2881 (0 : ℝ)) NoiseGate.new hlow
  rw [List.length_replicate] at hfsm
  have hnew : NoiseGate.new.fsm = (GState.Open, 0, 0) := rfl
  rw [hnew] at hfsm
  have hiter : fsmIter 2881 (GState.Open, 0, 0) = (GState.Release, 0, 1) := by
    have hsum : 1 + GATE_HOLD_SAMPLES + 1 + 479 = 2881 := by
      norm_num [GATE_HOLD_SAMPLES]
    have e1 : fsmIter 1 (GState.Open, 0, 0)
        = (GState.Hold, GATE_HOLD_SAMPLES, 0) := rfl
    have e2 : fsmIter GATE_HOLD_SAMPLES (GState.Hold, GATE_HOLD_SAMPLES, 0)
        = (GState.Hold, 0, 0) := by
      rw [fsm_hold_run _ _ _ (le_refl _), Nat.sub_self]
    have e3 : fsmIter 1 (GState.Hold, 0, 0)
        = (GState.Release, 0, GATE_RELEASE_SAMPLES) := rfl
    have e4 : fsmIter 479 (GState.Release, 0, GATE_RELEASE_SAMPLES)
        = (GState.Release, 0, 1) := by
      rw [fsm_rel_run _ _ _ (by norm_num [GATE_RELEASE_SAMPLES])]
      norm_num [GATE_RELEASE_SAMPLES]
    rw [← hsum, fsmIter_add, fsmIter_add, fsmIter_add, e1, e2, e3, e4]
  rw [hiter] at hfsm
  intro hc
  rw [NoiseGate.fsm, hc] at hfsm
  injection hfsm with h1 h2
  exact absurd h1 (by decide)
